import Mathlib

/-!
Verification development for the kommunity thread/record store
(`community/topics.go`): data model, on-disk store operations, and the
path-resolution logic of `LoadTopicByRelativePath`, embedded shallowly.

The store is modelled as an association list from store-relative file
paths to file contents; a file content is either a serialized topic
payload (the JSON fields; the `Filename` field is tagged `json:"-"` and
is never part of the payload) or unparseable junk.  File-system I/O
errors are outside the model; `os.Rename` is modelled as an upsert.
-/

namespace Kommunity

/-- `community.Reply`: author, content, timestamp. -/
structure Reply where
  Author : String
  Content : String
  Timestamp : String
deriving DecidableEq

/-- `community.Topic`.  `Filename` carries the Go field tagged `json:"-"`:
it is in-memory only and never serialized. -/
structure Topic where
  Title : String
  Body : String
  Author : String
  Upvotes : Int
  Downvotes : Int
  Timestamp : String
  Tags : List String
  Replies : List Reply
  Filename : String
deriving DecidableEq

/-- Content of one file in the store: a complete serialized topic payload,
or bytes that fail to decode as a `Topic`. -/
inductive File where
  | record (t : Topic) : File
  | junk : File
deriving DecidableEq

/-- The community directory: store-relative path ↦ file content, in
directory-walk order. -/
abbrev Store := List (String × File)

/-- `json.Decoder.Decode` into a `Topic`: the `Filename` field has tag
`json:"-"`, so decoding always leaves it at its zero value `""`. -/
def parseFile : File → Option Topic
  | .record t => some { t with Filename := "" }
  | .junk => none

/-- `strings.HasSuffix(strings.ToLower(name), ".json")`, char-level. -/
def hasJsonSuffix (p : String) : Bool :=
  List.isSuffixOf ".json".data (p.data.map Char.toLower)

/-- Reading the file at path `p` (first entry with that key). -/
def getFile (st : Store) (p : String) : Option File :=
  (st.find? fun e => e.1 == p).map Prod.snd

/-- `os.WriteFile` + `os.Rename`: replace the file at `p` if it exists,
otherwise create it. -/
def setFile (st : Store) (p : String) (f : File) : Store :=
  if st.any fun e => e.1 == p then
    st.map fun e => if e.1 == p then (p, f) else e
  else
    st ++ [(p, f)]

/-- The ASCII fragment of `unicode.ToLower` (`'A'..'Z'` shifted by 32,
everything else unchanged).  Go's `strings.ToLower` additionally
lower-cases non-ASCII letters (e.g. `À` to `à`), which this map does
not; it agrees with Go exactly on ASCII characters and on characters
that Unicode lower-casing leaves unchanged.  Every theorem below that
relies on a derived filename therefore restricts the title to ASCII
(`asciiString`), where this map is provably the program's. -/
def lowerChar (c : Char) : Char :=
  if 65 ≤ c.toNat ∧ c.toNat ≤ 90 then Char.ofNat (c.toNat + 32) else c

/-- Apostrophe, written without a character literal. -/
def apos : Char := Char.ofNat 39

/-- The decoded (character-level) form of `deriveFilenameBytes`, used as
the save path so that store keys stay strings.  On ASCII titles — the
only titles the derived-filename theorems quantify over — it is
byte-for-byte the program's derivation
(`deriveFilenameBytes_eq_of_ascii`); on non-ASCII titles Go's 50-byte
slice and Unicode lower-casing diverge from it (see the C9
counterexample). -/
def deriveFilename (title : String) : String :=
  let s1 := title.data.map lowerChar
  let s2 := s1.map fun c => if c = ' ' then '_' else c
  let s3 := s2.filter fun c => !(c == apos)
  ⟨s3.take 50⟩ ++ ".json"

/-- `community.SaveTopic` (agents.go 156-208).  Returns
`(store after the rename, path written, callee-local topic at return)`.
The third component records lines 201-205 (`topic.Filename = rel`); Go
passes `topic` by value and the function returns only `error`, so this
value is discarded at the call boundary and callers never observe it.
Paths are store-relative (the model's keys are the `filepath.Rel`
values, so the `filepath.Join(absDir, ·)` step is the identity). -/
def SaveTopicFull (t : Topic) (st : Store) : Store × String × Topic :=
  let path := if t.Filename ≠ "" then t.Filename else deriveFilename t.Title
  (setFile st path (.record { t with Filename := "" }), path, { t with Filename := path })

/-- The walk-and-parse phase of `community.LoadTopics` (agents.go
122-146): keep files whose lower-cased name ends in `".json"`, decode
each, silently skip decode failures, set `Filename` to the path relative
to the root. -/
def parsedRecords (st : Store) : List Topic :=
  st.filterMap fun e =>
    if hasJsonSuffix e.1 then (parseFile e.2).map fun t => { t with Filename := e.1 }
    else none

/-- Insertion step of the `sort.Slice` call with comparator
`topics[i].Timestamp > topics[j].Timestamp`.  The comparison is the
lexicographic order on the strings' character lists, which is exactly
`String`'s order (`String.lt_iff_toList_lt`) and is what Go's byte-wise
`>` computes on UTF-8 data. -/
def insertByTs (t : Topic) : List Topic → List Topic
  | [] => [t]
  | u :: us =>
    if u.Timestamp.data < t.Timestamp.data then t :: u :: us else u :: insertByTs t us

/-- Sort by `Timestamp` descending (lexicographic on the string), as the
`sort.Slice` call produces.  `sort.Slice` is unstable, so any order
agreeing with the strict comparator is a faithful model. -/
def sortByTsDesc : List Topic → List Topic
  | [] => []
  | t :: ts => insertByTs t (sortByTsDesc ts)

/-- `community.LoadTopics` (agents.go 115-153). -/
def LoadTopics (st : Store) : List Topic :=
  sortByTsDesc (parsedRecords st)

/-- `community.LoadRecentTopics` (agents.go 104-113): truncate to
`limit` when `limit > 0 && len(topics) > limit`. -/
def LoadRecentTopics (st : Store) (limit : Int) : List Topic :=
  let topics := LoadTopics st
  if 0 < limit ∧ limit < (topics.length : Int) then topics.take limit.toNat else topics

/-- `community.AddReplyToTopic` (agents.go 211-225): rescan, take the
first topic whose `Title` equals the argument, append the reply, save
the mutated topic (whose `Filename` is already set by the scan). -/
def AddReplyToTopic (title : String) (r : Reply) (st : Store) : Except String Store :=
  match (LoadTopics st).find? (fun u => u.Title == title) with
  | some t => .ok (SaveTopicFull { t with Replies := t.Replies ++ [r] } st).1
  | none => .error ("topic not found: " ++ title)

/-- A topic dated 2024-01-02, title `First Topic`. -/
def topicA : Topic :=
  { Title := "First Topic", Body := "alpha", Author := "a1", Upvotes := 0, Downvotes := 0,
    Timestamp := "2024-01-02T00:00:00Z", Tags := [], Replies := [], Filename := "" }

/-- A topic dated 2024-01-01, title `Second Topic`. -/
def topicB : Topic :=
  { Title := "Second Topic", Body := "beta", Author := "a2", Upvotes := 0, Downvotes := 0,
    Timestamp := "2024-01-01T00:00:00Z", Tags := [], Replies := [], Filename := "" }

/-- A topic with an unset location. -/
def topicM : Topic :=
  { Title := "My Topic", Body := "m", Author := "a3", Upvotes := 0, Downvotes := 0,
    Timestamp := "2024-01-03T00:00:00Z", Tags := [], Replies := [], Filename := "" }

/-- A concrete reply. -/
def replyR : Reply :=
  { Author := "r1", Content := "a reply", Timestamp := "2024-02-01T00:00:00Z" }

/-- A store with two record files and one unparseable file. -/
def demoStore : Store :=
  [("first_topic.json", File.record topicA), ("bad.json", File.junk),
   ("second_topic.json", File.record topicB)]

/-- A path segment: the characters between two `/` separators. -/
abbrev Seg := List Char

/-- The parent-directory segment `".."`. -/
def dotdot : Seg := ['.', '.']

/-- Split a character sequence on `'/'`, keeping empty pieces, as
`strings.Split(s, "/")` would (`""` yields `[[]]`). -/
def splitSlash : List Char → List Seg
  | [] => [[]]
  | c :: cs =>
    if c = '/' then [] :: splitSlash cs
    else
      match splitSlash cs with
      | [] => [[c]]
      | s :: ss => (c :: s) :: ss

/-- Segments that survive cleaning unchanged: neither empty nor `"."`. -/
def keepSegB (s : Seg) : Bool := !(s == [] || s == ['.'])

/-- Segment-level core of Go `path/filepath.Clean` (Plan-9 `cleanname`):
drop empty and `"."` segments; on `".."` pop the last kept segment,
except that a rooted path drops a `".."` at the root and a relative path
accumulates leading `".."`s.  `acc` holds the output so far, reversed. -/
def cleanCore (rooted : Bool) : List Seg → List Seg → List Seg
  | acc, [] => acc.reverse
  | acc, s :: rest =>
    if s = [] ∨ s = ['.'] then cleanCore rooted acc rest
    else if s = dotdot then
      match acc with
      | [] => if rooted then cleanCore rooted [] rest else cleanCore rooted [dotdot] rest
      | a :: as =>
        if a = dotdot then cleanCore rooted (dotdot :: a :: as) rest
        else cleanCore rooted as rest
    else cleanCore rooted (s :: acc) rest

/-- Rejoin segments with `'/'`. -/
def renderSegs : List Seg → List Char
  | [] => []
  | [s] => s
  | s :: rest => s ++ '/' :: renderSegs rest

/-- Go `filepath.Clean` on a unix path: `""` becomes `"."`; a rooted
path keeps its leading `/`; a relative path whose segments all cancel
becomes `"."`. -/
def goClean (p : String) : String :=
  match p.data with
  | [] => "."
  | c :: _ =>
    if c = '/' then ⟨'/' :: renderSegs (cleanCore true [] (splitSlash p.data))⟩
    else
      let segs := cleanCore false [] (splitSlash p.data)
      if segs = [] then "." else ⟨renderSegs segs⟩

/-- `strings.HasPrefix(s, "..")`. -/
def hasDotDotPrefix (s : String) : Bool :=
  match s.data with
  | '.' :: '.' :: _ => true
  | _ => false

/-- Go `filepath.Join(a, b)` for non-empty `a`:
`Clean(a + "/" + b)`. -/
def goJoin (a b : String) : String := goClean (a ++ "/" ++ b)

/-- Path resolution performed by `LoadTopicByRelativePath` (agents.go
233-237): `clean := filepath.Clean(relPath)`; reject when
`strings.HasPrefix(clean, "..")`; otherwise
`path := filepath.Join(absDir, clean)`. -/
def resolveTopicPath (absDir relPath : String) : Option String :=
  let clean := goClean relPath
  if hasDotDotPrefix clean then none else some (goJoin absDir clean)

/-- The canonical segments of an absolute path: what the file system
resolves `p` to. -/
def absSegs (p : String) : List Seg :=
  cleanCore true [] (splitSlash p.data)

/-- `community.LoadTopicByRelativePath` (agents.go 227-246).  `lookup`
stands for the file system keyed by absolute path.  The final
`filepath.Rel`-based rewrite of `Filename` is kept as the resolved path
(the model does not distinguish the two spellings). -/
def LoadTopicByRelativePath (lookup : String → Option File) (absDir relPath : String) :
    Except String Topic :=
  match resolveTopicPath absDir relPath with
  | none => .error ("invalid topic path: " ++ relPath)
  | some path =>
    match lookup path with
    | none => .error "opening topic file"
    | some f =>
      match parseFile f with
      | none => .error "decoding topic JSON"
      | some t => .ok { t with Filename := path }

/-- A well-formed cleaned segment: non-empty and not `"."`. -/
abbrev GoodSeg (s : Seg) : Prop := s ≠ [] ∧ s ≠ ['.']

/-- Segments of a well-formed absolute store root: each cleaned-form
(good, not `".."`) and free of separators. -/
abbrev WFRootSegs (rootSegs : List Seg) : Prop :=
  ∀ s ∈ rootSegs, GoodSeg s ∧ s ≠ dotdot ∧ '/' ∉ s

/-- The absolute store-root path built from its segments. -/
def rootString (rootSegs : List Seg) : String := ⟨'/' :: renderSegs rootSegs⟩

/-- Invariant of the `cleanCore` accumulator on relative paths: the
`".."` segments form a suffix of `acc` (so a prefix of the output). -/
def AccInv : List Seg → Prop
  | [] => True
  | s :: rest => (s = dotdot → ∀ x ∈ rest, x = dotdot) ∧ AccInv rest

/-! ### Lemmas about path splitting and rendering -/

theorem splitSlash_ne_nil (cs : List Char) : splitSlash cs ≠ [] := by
  induction cs with
  | nil => simp [splitSlash]
  | cons c cs ih =>
    simp only [splitSlash]
    split
    · simp
    · cases h : splitSlash cs with
      | nil => simp
      | cons s ss => simp

theorem splitSlash_append (xs ys : List Char) :
    splitSlash (xs ++ '/' :: ys) = splitSlash xs ++ splitSlash ys := by
  induction xs with
  | nil => simp [splitSlash]
  | cons c cs ih =>
    simp only [List.cons_append, splitSlash]
    by_cases hc : c = '/'
    · simp [hc, ih]
    · rw [if_neg hc, if_neg hc]
      simp only [List.append_eq]
      rw [ih]
      cases h : splitSlash cs with
      | nil => exact absurd h (splitSlash_ne_nil cs)
      | cons s ss => simp

theorem no_slash_mem_splitSlash (cs : List Char) : ∀ s ∈ splitSlash cs, '/' ∉ s := by
  induction cs with
  | nil => simp [splitSlash]
  | cons c cs ih =>
    intro s hs
    simp only [splitSlash] at hs
    by_cases hc : c = '/'
    · rw [if_pos hc] at hs
      rcases List.mem_cons.1 hs with h1 | h1
      · simp [h1]
      · exact ih s h1
    · rw [if_neg hc] at hs
      cases h : splitSlash cs with
      | nil => exact absurd h (splitSlash_ne_nil cs)
      | cons t ts =>
        rw [h] at hs
        rcases List.mem_cons.1 hs with h1 | h1
        · subst h1
          intro hm
          rcases List.mem_cons.1 hm with h2 | h2
          · exact hc h2.symm
          · exact ih t (h ▸ List.mem_cons_self t ts) h2
        · exact ih s (h ▸ List.mem_cons_of_mem t h1)

theorem splitSlash_of_no_slash (cs : List Char) (h : '/' ∉ cs) : splitSlash cs = [cs] := by
  induction cs with
  | nil => simp [splitSlash]
  | cons c cs ih =>
    simp only [List.mem_cons, not_or] at h
    have hc : ¬ c = '/' := fun hc => h.1 hc.symm
    rw [splitSlash, if_neg hc, ih h.2]

theorem splitSlash_renderSegs (segs : List Seg) (hne : segs ≠ [])
    (h : ∀ s ∈ segs, s ≠ [] ∧ '/' ∉ s) : splitSlash (renderSegs segs) = segs := by
  induction segs with
  | nil => exact absurd rfl hne
  | cons s rest ih =>
    cases rest with
    | nil =>
      simp only [renderSegs]
      exact splitSlash_of_no_slash s (h s (List.mem_cons_self s [])).2
    | cons t ts =>
      have hs := h s (List.mem_cons_self s (t :: ts))
      have : renderSegs (s :: t :: ts) = s ++ '/' :: renderSegs (t :: ts) := rfl
      rw [this, splitSlash_append, splitSlash_of_no_slash s hs.2,
        ih (by simp) (fun u hu => h u (List.mem_cons_of_mem s hu))]
      rfl

theorem keepSegB_true {s : Seg} : keepSegB s = true ↔ GoodSeg s := by
  simp [keepSegB, GoodSeg]

theorem filter_splitSlash_render (segs : List Seg)
    (h : ∀ s ∈ segs, GoodSeg s ∧ '/' ∉ s) :
    (splitSlash (renderSegs segs)).filter keepSegB = segs := by
  cases hs : segs with
  | nil => simp [renderSegs, splitSlash, keepSegB]
  | cons s rest =>
    rw [← hs, splitSlash_renderSegs segs (by simp [hs])
      (fun u hu => ⟨(h u hu).1.1, (h u hu).2⟩)]
    exact List.filter_eq_self.2 fun u hu => keepSegB_true.2 (h u hu).1

/-! ### Lemmas about `cleanCore` -/

theorem cleanCore_true_spec (input : List Seg) :
    ∀ acc, (∀ s ∈ acc, GoodSeg s ∧ '/' ∉ s) → dotdot ∉ acc →
      (∀ s ∈ input, '/' ∉ s) →
      ∀ s ∈ cleanCore true acc input, GoodSeg s ∧ '/' ∉ s ∧ s ≠ dotdot := by
  induction input with
  | nil =>
    intro acc hacc hnd _ s hs
    simp only [cleanCore] at hs
    have h := hacc s (List.mem_reverse.1 hs)
    exact ⟨h.1, h.2, fun he => hnd (he ▸ List.mem_reverse.1 hs)⟩
  | cons t rest ih =>
    intro acc hacc hnd hin s hs
    simp only [cleanCore] at hs
    by_cases h1 : t = [] ∨ t = ['.']
    · rw [if_pos h1] at hs
      exact ih acc hacc hnd (fun u hu => hin u (List.mem_cons_of_mem t hu)) s hs
    · rw [if_neg h1] at hs
      by_cases h2 : t = dotdot
      · rw [if_pos h2] at hs
        cases acc with
        | nil =>
          exact ih [] (by simp) (by simp)
            (fun u hu => hin u (List.mem_cons_of_mem t hu)) s hs
        | cons a as =>
          by_cases h3 : a = dotdot
          · exact absurd (h3 ▸ List.mem_cons_self a as) hnd
          · have hs' : s ∈ (if a = dotdot then cleanCore true (dotdot :: a :: as) rest
                else cleanCore true as rest) := hs
            rw [if_neg h3] at hs'
            exact ih as (fun u hu => hacc u (List.mem_cons_of_mem a hu))
              (fun hm => hnd (List.mem_cons_of_mem a hm))
              (fun u hu => hin u (List.mem_cons_of_mem t hu)) s hs'
      · rw [if_neg h2] at hs
        refine ih (t :: acc) ?_ ?_ (fun u hu => hin u (List.mem_cons_of_mem t hu)) s hs
        · intro u hu
          rcases List.mem_cons.1 hu with h4 | h4
          · subst h4
            exact ⟨not_or.1 h1, hin u (List.mem_cons_self u rest)⟩
          · exact hacc u h4
        · intro hm
          rcases List.mem_cons.1 hm with h4 | h4
          · exact h2 h4.symm
          · exact hnd h4

theorem cleanCore_false_spec (input : List Seg) :
    ∀ acc, AccInv acc → (∀ s ∈ acc, GoodSeg s ∧ '/' ∉ s) →
      (∀ s ∈ input, '/' ∉ s) →
      ∃ accF, cleanCore false acc input = accF.reverse ∧ AccInv accF ∧
        ∀ s ∈ accF, GoodSeg s ∧ '/' ∉ s := by
  induction input with
  | nil =>
    intro acc hinv hacc _
    exact ⟨acc, by simp [cleanCore], hinv, hacc⟩
  | cons t rest ih =>
    intro acc hinv hacc hin
    have hrest : ∀ s ∈ rest, '/' ∉ s := fun u hu => hin u (List.mem_cons_of_mem t hu)
    simp only [cleanCore]
    by_cases h1 : t = [] ∨ t = ['.']
    · rw [if_pos h1]
      exact ih acc hinv hacc hrest
    · rw [if_neg h1]
      by_cases h2 : t = dotdot
      · rw [if_pos h2]
        cases acc with
        | nil =>
          rw [if_neg (by decide : ¬ (false = true))]
          refine ih [dotdot] ⟨fun _ x hx => absurd hx (List.not_mem_nil x), trivial⟩
            ?_ hrest
          intro u hu
          rcases List.mem_cons.1 hu with h4 | h4
          · subst h4; exact ⟨⟨by decide, by decide⟩, by decide⟩
          · exact absurd h4 (List.not_mem_nil u)
        | cons a as =>
          show ∃ accF, (if a = dotdot then cleanCore false (dotdot :: a :: as) rest
              else cleanCore false as rest) = accF.reverse ∧ AccInv accF ∧
              ∀ s ∈ accF, GoodSeg s ∧ '/' ∉ s
          by_cases h3 : a = dotdot
          · rw [if_pos h3]
            refine ih (dotdot :: a :: as) ?_ ?_ hrest
            · refine ⟨fun _ x hx => ?_, hinv⟩
              rcases List.mem_cons.1 hx with h4 | h4
              · exact h4.trans h3
              · exact hinv.1 h3 x h4
            · intro u hu
              rcases List.mem_cons.1 hu with h4 | h4
              · subst h4; exact ⟨⟨by decide, by decide⟩, by decide⟩
              · exact hacc u h4
          · rw [if_neg h3]
            exact ih as hinv.2 (fun u hu => hacc u (List.mem_cons_of_mem a hu)) hrest
      · rw [if_neg h2]
        refine ih (t :: acc) ⟨fun ht => absurd ht h2, hinv⟩ ?_ hrest
        intro u hu
        rcases List.mem_cons.1 hu with h4 | h4
        · subst h4
          exact ⟨not_or.1 h1, hin u (List.mem_cons_self u rest)⟩
        · exact hacc u h4

theorem cleanCore_of_no_dotdot (rooted : Bool) (input : List Seg) :
    ∀ acc, dotdot ∉ input →
      cleanCore rooted acc input = acc.reverse ++ input.filter keepSegB := by
  induction input with
  | nil => intro acc _; simp [cleanCore]
  | cons t rest ih =>
    intro acc hnd
    simp only [List.mem_cons, not_or] at hnd
    simp only [cleanCore]
    by_cases h1 : t = [] ∨ t = ['.']
    · rw [if_pos h1, ih acc hnd.2]
      have hk : keepSegB t = false := by
        rcases h1 with h | h <;> simp [keepSegB, h]
      rw [List.filter_cons, hk]
      simp
    · rw [if_neg h1]
      by_cases h2 : t = dotdot
      · exact absurd h2.symm hnd.1
      · rw [if_neg h2, ih (t :: acc) hnd.2]
        have hk : keepSegB t = true := keepSegB_true.2 (not_or.1 h1)
        rw [List.filter_cons, hk]
        simp

theorem accInv_getLast (acc : List Seg) (hinv : AccInv acc) (hmem : dotdot ∈ acc) :
    acc.getLast? = some dotdot := by
  induction acc with
  | nil => exact absurd hmem (List.not_mem_nil _)
  | cons s rest ih =>
    by_cases hr : dotdot ∈ rest
    · have hlast := ih hinv.2 hr
      cases rest with
      | nil => exact absurd hr (List.not_mem_nil _)
      | cons t ts => rw [List.getLast?_cons_cons]; exact hlast
    · have hs : s = dotdot := by
        rcases List.mem_cons.1 hmem with h | h
        · exact h.symm
        · exact absurd h hr
      have hrest : rest = [] := by
        cases rest with
        | nil => rfl
        | cons t ts =>
          exact absurd (List.mem_cons_self t ts) fun hm =>
            hr ((hinv.1 hs t hm) ▸ List.mem_cons_self t ts)
      subst hrest
      simp [hs]

theorem cleanCore_false_head (input : List Seg) (hin : ∀ s ∈ input, '/' ∉ s)
    (hmem : dotdot ∈ cleanCore false [] input) :
    (cleanCore false [] input).head? = some dotdot := by
  obtain ⟨accF, heq, hinv, _⟩ :=
    cleanCore_false_spec input [] trivial (fun u hu => absurd hu (List.not_mem_nil u)) hin
  rw [heq] at hmem ⊢
  rw [List.head?_reverse]
  exact accInv_getLast accF hinv (List.mem_reverse.1 hmem)

/-! ### Lemmas about `goClean`, `goJoin` and path safety -/

theorem goClean_eq_empty (p : String) (hd : p.data = []) : goClean p = "." := by
  simp only [goClean, hd]

theorem goClean_eq_rooted (p : String) (cs : List Char) (hd : p.data = '/' :: cs) :
    goClean p = ⟨'/' :: renderSegs (cleanCore true [] (splitSlash p.data))⟩ := by
  conv_lhs => simp only [goClean, hd]
  rw [if_pos trivial, hd]

theorem goClean_eq_rel (p : String) (c : Char) (cs : List Char) (hd : p.data = c :: cs)
    (hc : ¬ c = '/') :
    goClean p = if cleanCore false [] (splitSlash p.data) = [] then "."
      else ⟨renderSegs (cleanCore false [] (splitSlash p.data))⟩ := by
  conv_lhs => simp only [goClean, hd]
  rw [if_neg hc, hd]

theorem hasDotDotPrefix_render_dotdot (as : List Seg) :
    hasDotDotPrefix ⟨renderSegs (dotdot :: as)⟩ = true := by
  cases as <;> rfl

theorem goClean_accepted_no_dotdot (p : String)
    (h : hasDotDotPrefix (goClean p) = false) :
    dotdot ∉ splitSlash (goClean p).data := by
  cases hd : p.data with
  | nil =>
    rw [goClean_eq_empty p hd]
    decide
  | cons c cs =>
    by_cases hc : c = '/'
    · subst hc
      rw [goClean_eq_rooted p cs hd]
      have hgood := cleanCore_true_spec (splitSlash p.data) [] (by simp) (by simp)
        (no_slash_mem_splitSlash p.data)
      show dotdot ∉ splitSlash ('/' :: renderSegs (cleanCore true [] (splitSlash p.data)))
      have hsplit : splitSlash ('/' :: renderSegs (cleanCore true [] (splitSlash p.data)))
          = [] :: splitSlash (renderSegs (cleanCore true [] (splitSlash p.data))) := by
        simp [splitSlash]
      rw [hsplit]
      intro hmem
      rcases List.mem_cons.1 hmem with h1 | h1
      · exact absurd h1 (by decide)
      · cases hs0 : cleanCore true [] (splitSlash p.data) with
        | nil => rw [hs0] at h1; simp [renderSegs, splitSlash, dotdot] at h1
        | cons a as =>
          rw [hs0, splitSlash_renderSegs (a :: as) (by simp)
            (fun s hs => ⟨(hgood s (hs0 ▸ hs)).1.1, (hgood s (hs0 ▸ hs)).2.1⟩)] at h1
          exact (hgood dotdot (hs0 ▸ h1)).2.2 rfl
    · rw [goClean_eq_rel p c cs hd hc] at h ⊢
      by_cases hnil : cleanCore false [] (splitSlash p.data) = []
      · rw [if_pos hnil]
        decide
      · rw [if_neg hnil] at h ⊢
        obtain ⟨accF, heq, hinv, hgoodF⟩ := cleanCore_false_spec (splitSlash p.data) []
          trivial (by simp) (no_slash_mem_splitSlash p.data)
        have hgood : ∀ s ∈ cleanCore false [] (splitSlash p.data), GoodSeg s ∧ '/' ∉ s := by
          rw [heq]
          intro s hs
          exact hgoodF s (List.mem_reverse.1 hs)
        have hnd : dotdot ∉ cleanCore false [] (splitSlash p.data) := by
          intro hmem
          have hhead := cleanCore_false_head (splitSlash p.data)
            (no_slash_mem_splitSlash p.data) hmem
          cases hs0 : cleanCore false [] (splitSlash p.data) with
          | nil => exact hnil hs0
          | cons a as =>
            rw [hs0] at hhead
            have ha : a = dotdot := by simpa using hhead
            rw [hs0, ha, hasDotDotPrefix_render_dotdot] at h
            exact absurd h (by decide)
        show dotdot ∉ splitSlash (renderSegs (cleanCore false [] (splitSlash p.data)))
        rw [splitSlash_renderSegs _ hnil
          (fun s hs => ⟨(hgood s hs).1.1, (hgood s hs).2⟩)]
        exact hnd

theorem dotdot_not_mem_splitSlash_render (rootSegs : List Seg) (hwf : WFRootSegs rootSegs) :
    dotdot ∉ splitSlash (renderSegs rootSegs) := by
  cases hs : rootSegs with
  | nil => simp [renderSegs, splitSlash]; decide
  | cons a as =>
    rw [← hs, splitSlash_renderSegs rootSegs (by simp [hs])
      (fun s hsm => ⟨(hwf s hsm).1.1, (hwf s hsm).2.2⟩)]
    intro hmem
    exact (hwf dotdot hmem).2.1 rfl

theorem absSegs_goJoin (rootSegs : List Seg) (hwf : WFRootSegs rootSegs) (b : String)
    (hb : dotdot ∉ splitSlash b.data) :
    absSegs (goJoin (rootString rootSegs) b)
      = rootSegs ++ (splitSlash b.data).filter keepSegB := by
  have hq : (rootString rootSegs ++ "/" ++ b).data
      = '/' :: (renderSegs rootSegs ++ '/' :: b.data) := by
    show ((rootString rootSegs).data ++ "/".data) ++ b.data = _
    show (('/' :: renderSegs rootSegs) ++ ['/']) ++ b.data = _
    simp
  have hsplitq : splitSlash ((rootString rootSegs ++ "/" ++ b).data)
      = [] :: (splitSlash (renderSegs rootSegs) ++ splitSlash b.data) := by
    rw [hq]
    have : splitSlash ('/' :: (renderSegs rootSegs ++ '/' :: b.data))
        = [] :: splitSlash (renderSegs rootSegs ++ '/' :: b.data) := by simp [splitSlash]
    rw [this, splitSlash_append]
  have hndq : dotdot ∉ splitSlash ((rootString rootSegs ++ "/" ++ b).data) := by
    rw [hsplitq]
    intro hmem
    rcases List.mem_cons.1 hmem with h1 | h1
    · exact absurd h1 (by decide)
    · rcases List.mem_append.1 h1 with h2 | h2
      · exact dotdot_not_mem_splitSlash_render rootSegs hwf h2
      · exact hb h2
  have hS : cleanCore true [] (splitSlash ((rootString rootSegs ++ "/" ++ b).data))
      = rootSegs ++ (splitSlash b.data).filter keepSegB := by
    rw [cleanCore_of_no_dotdot true _ [] hndq, hsplitq]
    rw [List.filter_cons, (by decide : keepSegB [] = false), if_neg (by decide : ¬ (false = true))]
    simp only [List.reverse_nil, List.nil_append, List.filter_append]
    rw [filter_splitSlash_render rootSegs (fun s hs => ⟨(hwf s hs).1, (hwf s hs).2.2⟩)]
  have hgoodS : ∀ s ∈ rootSegs ++ (splitSlash b.data).filter keepSegB,
      GoodSeg s ∧ '/' ∉ s := by
    intro s hs
    rcases List.mem_append.1 hs with h1 | h1
    · exact ⟨(hwf s h1).1, (hwf s h1).2.2⟩
    · have hm := List.mem_of_mem_filter h1
      have hk := List.of_mem_filter h1
      exact ⟨keepSegB_true.1 hk, no_slash_mem_splitSlash b.data s hm⟩
  have hndS : dotdot ∉ rootSegs ++ (splitSlash b.data).filter keepSegB := by
    intro hmem
    rcases List.mem_append.1 hmem with h1 | h1
    · exact (hwf dotdot h1).2.1 rfl
    · exact hb (List.mem_of_mem_filter h1)
  rw [goJoin, goClean_eq_rooted _ (renderSegs rootSegs ++ '/' :: b.data) hq, hS]
  show cleanCore true [] (splitSlash ('/' :: renderSegs
    (rootSegs ++ (splitSlash b.data).filter keepSegB))) = _
  have hsplit2 : splitSlash ('/' :: renderSegs (rootSegs ++ (splitSlash b.data).filter keepSegB))
      = [] :: splitSlash (renderSegs (rootSegs ++ (splitSlash b.data).filter keepSegB)) := by
    simp [splitSlash]
  rw [hsplit2, cleanCore_of_no_dotdot, List.filter_cons,
    (by decide : keepSegB [] = false), if_neg (by decide : ¬ (false = true))]
  · simp only [List.reverse_nil, List.nil_append]
    exact filter_splitSlash_render _ hgoodS
  · intro hmem
    rcases List.mem_cons.1 hmem with h1 | h1
    · exact absurd h1 (by decide)
    · cases hs0 : rootSegs ++ (splitSlash b.data).filter keepSegB with
      | nil => rw [hs0] at h1; simp [renderSegs, splitSlash, dotdot] at h1
      | cons a as =>
        rw [hs0, splitSlash_renderSegs (a :: as) (by simp)
          (fun s hs => ⟨((hs0 ▸ hgoodS) s hs).1.1, ((hs0 ▸ hgoodS) s hs).2⟩)] at h1
        exact hndS (hs0 ▸ h1)

/-! ### Lemmas about the store operations -/

theorem find?_map_replace_self (st : Store) (p : String) (f : File)
    (h : st.any (fun e => e.1 == p) = true) :
    ((st.map fun e => if e.1 == p then (p, f) else e).find? fun e => e.1 == p)
      = some (p, f) := by
  induction st with
  | nil => simp at h
  | cons x xs ih =>
    by_cases hx : (x.1 == p) = true
    · simp only [List.map_cons, if_pos hx]
      exact @List.find?_cons_of_pos _ (fun e => e.1 == p) (p, f) _ (by simp)
    · simp only [List.map_cons, if_neg hx]
      rw [@List.find?_cons_of_neg _ (fun e => e.1 == p) x _ hx]
      refine ih ?_
      simpa only [List.any_cons, (by simpa using hx : (x.1 == p) = false),
        Bool.false_or] using h

theorem find?_append_single (st : Store) (p : String) (f : File)
    (h : (st.find? fun e => e.1 == p) = none) :
    ((st ++ [(p, f)]).find? fun e => e.1 == p) = some (p, f) := by
  induction st with
  | nil =>
    simp only [List.nil_append]
    exact @List.find?_cons_of_pos _ (fun e => e.1 == p) (p, f) _ (by simp)
  | cons x xs ih =>
    have hx : ¬ (x.1 == p) = true := by
      intro hc
      rw [@List.find?_cons_of_pos _ (fun e => e.1 == p) x xs hc] at h
      exact Option.noConfusion h
    rw [@List.find?_cons_of_neg _ (fun e => e.1 == p) x xs hx] at h
    rw [List.cons_append, @List.find?_cons_of_neg _ (fun e => e.1 == p) x _ hx]
    exact ih h

theorem getFile_setFile_self (st : Store) (p : String) (f : File) :
    getFile (setFile st p f) p = some f := by
  unfold setFile getFile
  by_cases h : st.any (fun e => e.1 == p) = true
  · rw [if_pos h, find?_map_replace_self st p f h]
    rfl
  · rw [if_neg h]
    have hnone : (st.find? fun e => e.1 == p) = none := by
      rw [List.find?_eq_none]
      intro e he hbe
      exact h (List.any_eq_true.2 ⟨e, he, hbe⟩)
    rw [find?_append_single st p f hnone]
    rfl

theorem find?_map_replace_ne (st : Store) (p q : String) (f : File) (hqp : q ≠ p) :
    ((st.map fun e => if e.1 == p then (p, f) else e).find? fun e => e.1 == q)
      = st.find? fun e => e.1 == q := by
  induction st with
  | nil => rfl
  | cons x xs ih =>
    by_cases hx : (x.1 == p) = true
    · have hxp : x.1 = p := by simpa using hx
      simp only [List.map_cons, if_pos hx]
      rw [@List.find?_cons_of_neg _ (fun e => e.1 == q) (p, f) _ (by simp [Ne.symm hqp]),
        @List.find?_cons_of_neg _ (fun e => e.1 == q) x xs (by simp [hxp, Ne.symm hqp]), ih]
    · simp only [List.map_cons, if_neg hx]
      by_cases hq : (x.1 == q) = true
      · rw [@List.find?_cons_of_pos _ (fun e => e.1 == q) x _ hq,
          @List.find?_cons_of_pos _ (fun e => e.1 == q) x xs hq]
      · rw [@List.find?_cons_of_neg _ (fun e => e.1 == q) x _ hq,
          @List.find?_cons_of_neg _ (fun e => e.1 == q) x xs hq, ih]

theorem find?_append_single_ne (st : Store) (p q : String) (f : File) (hqp : q ≠ p) :
    ((st ++ [(p, f)]).find? fun e => e.1 == q) = st.find? fun e => e.1 == q := by
  induction st with
  | nil =>
    simp only [List.nil_append, List.find?_nil]
    rw [@List.find?_cons_of_neg _ (fun e => e.1 == q) (p, f) [] (by simp [Ne.symm hqp]),
      List.find?_nil]
  | cons x xs ih =>
    rw [List.cons_append]
    by_cases hq : (x.1 == q) = true
    · rw [@List.find?_cons_of_pos _ (fun e => e.1 == q) x _ hq,
        @List.find?_cons_of_pos _ (fun e => e.1 == q) x xs hq]
    · rw [@List.find?_cons_of_neg _ (fun e => e.1 == q) x _ hq,
        @List.find?_cons_of_neg _ (fun e => e.1 == q) x xs hq, ih]

theorem getFile_setFile_ne (st : Store) (p q : String) (f : File) (hqp : q ≠ p) :
    getFile (setFile st p f) q = getFile st q := by
  unfold setFile getFile
  by_cases h : st.any (fun e => e.1 == p) = true
  · rw [if_pos h, find?_map_replace_ne st p q f hqp]
  · rw [if_neg h, find?_append_single_ne st p q f hqp]

theorem setFile_keys_of_mem (st : Store) (p : String) (f : File)
    (h : p ∈ st.map Prod.fst) :
    (setFile st p f).map Prod.fst = st.map Prod.fst := by
  have hany : st.any (fun e => e.1 == p) = true := by
    rcases List.mem_map.1 h with ⟨e, he, hfst⟩
    exact List.any_eq_true.2 ⟨e, he, by simp [hfst]⟩
  unfold setFile
  rw [if_pos hany, List.map_map]
  apply List.map_congr_left
  intro e _
  by_cases hx : e.1 == p
  · simp only [Function.comp_apply, if_pos hx]
    have : e.1 = p := by simpa using hx
    simp [this]
  · simp only [Function.comp_apply, if_neg hx]

theorem mem_setFile_of_ne (st : Store) (p : String) (f : File) (e : String × File)
    (he : e ∈ st) (hne : e.1 ≠ p) : e ∈ setFile st p f := by
  unfold setFile
  by_cases h : st.any (fun e => e.1 == p) = true
  · rw [if_pos h]
    refine List.mem_map.2 ⟨e, he, ?_⟩
    rw [if_neg (by simp [hne])]
  · rw [if_neg h]
    exact List.mem_append_left _ he

theorem insertByTs_perm (t : Topic) (l : List Topic) :
    List.Perm (insertByTs t l) (t :: l) := by
  induction l with
  | nil => simp [insertByTs]
  | cons u us ih =>
    simp only [insertByTs]
    by_cases h : u.Timestamp.data < t.Timestamp.data
    · rw [if_pos h]
    · rw [if_neg h]
      exact (List.Perm.cons u ih).trans (List.Perm.swap t u us)

theorem sortByTsDesc_perm (l : List Topic) : List.Perm (sortByTsDesc l) l := by
  induction l with
  | nil => simp [sortByTsDesc]
  | cons t ts ih =>
    simp only [sortByTsDesc]
    exact (insertByTs_perm t (sortByTsDesc ts)).trans (List.Perm.cons t ih)

theorem insertByTs_sorted (t : Topic) (l : List Topic)
    (h : l.Pairwise fun a b => b.Timestamp ≤ a.Timestamp) :
    (insertByTs t l).Pairwise fun a b => b.Timestamp ≤ a.Timestamp := by
  induction l with
  | nil => simp [insertByTs]
  | cons u us ih =>
    simp only [insertByTs]
    by_cases hc : u.Timestamp.data < t.Timestamp.data
    · rw [if_pos hc]
      have hlt : u.Timestamp < t.Timestamp := String.lt_iff_toList_lt.2 hc
      refine List.pairwise_cons.2 ⟨?_, h⟩
      intro v hv
      rcases List.mem_cons.1 hv with h1 | h1
      · exact h1 ▸ le_of_lt hlt
      · exact le_trans ((List.pairwise_cons.1 h).1 v h1) (le_of_lt hlt)
    · rw [if_neg hc]
      have hle : t.Timestamp ≤ u.Timestamp :=
        le_of_not_lt fun hcon => hc (String.lt_iff_toList_lt.1 hcon)
      refine List.pairwise_cons.2 ⟨?_, ih (List.pairwise_cons.1 h).2⟩
      intro v hv
      rcases List.mem_cons.1 ((insertByTs_perm t us).mem_iff.1 hv) with h1 | h1
      · exact h1 ▸ hle
      · exact (List.pairwise_cons.1 h).1 v h1

theorem sortByTsDesc_sorted (l : List Topic) :
    (sortByTsDesc l).Pairwise fun a b => b.Timestamp ≤ a.Timestamp := by
  induction l with
  | nil => simp [sortByTsDesc]
  | cons t ts ih => exact insertByTs_sorted t (sortByTsDesc ts) ih

/-! ### Lemmas about scanning -/

theorem parseFile_filename (f : File) (t : Topic) (h : parseFile f = some t) :
    t.Filename = "" := by
  cases f with
  | record u => simp only [parseFile, Option.some.injEq] at h; rw [← h]
  | junk => simp [parseFile] at h

theorem topic_set_filename_self (t : Topic) (v : String) (h : t.Filename = v) :
    { t with Filename := v } = t := by
  cases t
  simp_all

theorem loadTopics_perm (st : Store) : List.Perm (LoadTopics st) (parsedRecords st) :=
  sortByTsDesc_perm (parsedRecords st)

theorem mem_loadTopics_iff (st : Store) (t : Topic) :
    t ∈ LoadTopics st ↔ t ∈ parsedRecords st :=
  (loadTopics_perm st).mem_iff

theorem mem_parsedRecords_elim (st : Store) (t : Topic) (h : t ∈ parsedRecords st) :
    ∃ f, (t.Filename, f) ∈ st ∧ hasJsonSuffix t.Filename = true ∧
      parseFile f = some { t with Filename := "" } := by
  rcases List.mem_filterMap.1 h with ⟨e, he, heq⟩
  by_cases hs : hasJsonSuffix e.1
  · rw [if_pos hs] at heq
    rcases Option.map_eq_some'.1 heq with ⟨t0, ht0, hset⟩
    have hfn : t.Filename = e.1 := by rw [← hset]
    refine ⟨e.2, ?_, ?_, ?_⟩
    · rw [hfn]; exact he
    · rw [hfn]; exact hs
    · rw [ht0]
      have h0 : t0.Filename = "" := parseFile_filename e.2 t0 ht0
      rw [← hset]
      cases t0
      simp_all
  · rw [if_neg hs] at heq
    exact Option.noConfusion heq

theorem hasJsonSuffix_ne_empty (p : String) (h : hasJsonSuffix p = true) : p ≠ "" := by
  intro he
  subst he
  revert h
  decide

/-! ### Claim C1 -/

/-- C1: for every store root and every externally supplied relative path,
the resolution step of `LoadTopicByRelativePath` cleans the path
(`filepath.Clean`), rejects any cleaned path that still begins with a
parent-directory escape, and hence never yields a path outside the store
root; in particular `resolve(root, "../../etc/passwd")` fails while
`resolve(root, "sub/a.json")` succeeds and resolves to a path under the
root. -/
theorem resolveTopicPath_safe (rootSegs : List Seg) (hwf : WFRootSegs rootSegs) :
    resolveTopicPath (rootString rootSegs) "../../etc/passwd" = none
  ∧ (resolveTopicPath (rootString rootSegs) "sub/a.json").isSome = true
  ∧ ∀ relPath p, resolveTopicPath (rootString rootSegs) relPath = some p →
      rootSegs <+: absSegs p := by
  refine ⟨?_, ?_, ?_⟩
  · simp only [resolveTopicPath]
    rw [if_pos (by decide : hasDotDotPrefix (goClean "../../etc/passwd") = true)]
  · simp only [resolveTopicPath]
    rw [if_neg (by decide : ¬ hasDotDotPrefix (goClean "sub/a.json") = true)]
    rfl
  · intro relPath p hres
    simp only [resolveTopicPath] at hres
    by_cases hpre : hasDotDotPrefix (goClean relPath) = true
    · rw [if_pos hpre] at hres
      exact absurd hres (by simp)
    · rw [if_neg hpre] at hres
      have hp : p = goJoin (rootString rootSegs) (goClean relPath) :=
        (Option.some.inj hres).symm
      subst hp
      have hfalse : hasDotDotPrefix (goClean relPath) = false := by
        revert hpre
        cases hasDotDotPrefix (goClean relPath) <;> simp
      have hnd := goClean_accepted_no_dotdot relPath hfalse
      rw [absSegs_goJoin rootSegs hwf (goClean relPath) hnd]
      exact List.prefix_append rootSegs _

/-- Concrete instantiation of `resolveTopicPath_safe` at the root
`/data/community`, with every hypothesis discharged by computation. -/
theorem resolveTopicPath_safe_witness :
    WFRootSegs [['d', 'a', 't', 'a'], ['c', 'o', 'm', 'm', 'u', 'n', 'i', 't', 'y']]
  ∧ (resolveTopicPath
      (rootString [['d', 'a', 't', 'a'], ['c', 'o', 'm', 'm', 'u', 'n', 'i', 't', 'y']])
      "../../etc/passwd" = none
    ∧ (resolveTopicPath
        (rootString [['d', 'a', 't', 'a'], ['c', 'o', 'm', 'm', 'u', 'n', 'i', 't', 'y']])
        "sub/a.json").isSome = true
    ∧ ∀ relPath p, resolveTopicPath
        (rootString [['d', 'a', 't', 'a'], ['c', 'o', 'm', 'm', 'u', 'n', 'i', 't', 'y']])
        relPath = some p →
        [['d', 'a', 't', 'a'], ['c', 'o', 'm', 'm', 'u', 'n', 'i', 't', 'y']] <+: absSegs p) :=
  ⟨by decide, resolveTopicPath_safe _ (by decide)⟩

/-! ### Claim C10 -/

/-- C10: some relative paths staying strictly inside the store root are
still rejected: a cleaned path that merely begins with the two
characters `".."` is refused, so a record file legitimately named
`..topic.json` directly under the root is unreachable through
`LoadTopicByRelativePath` (for every possible file-system content),
even though its resolved path is strictly under the root. -/
theorem dotdot_named_file_unreachable :
    (∀ lookup : String → Option File,
      LoadTopicByRelativePath lookup (rootString [['d', 'a', 't', 'a'],
          ['c', 'o', 'm', 'm', 'u', 'n', 'i', 't', 'y']]) "..topic.json"
        = .error "invalid topic path: ..topic.json")
  ∧ goClean "..topic.json" = "..topic.json"
  ∧ absSegs (goJoin (rootString [['d', 'a', 't', 'a'],
        ['c', 'o', 'm', 'm', 'u', 'n', 'i', 't', 'y']]) "..topic.json")
      = absSegs (rootString [['d', 'a', 't', 'a'], ['c', 'o', 'm', 'm', 'u', 'n', 'i', 't', 'y']])
        ++ [['.', '.', 't', 'o', 'p', 'i', 'c', '.', 'j', 's', 'o', 'n']] := by
  refine ⟨?_, by decide, by decide⟩
  intro lookup
  simp only [LoadTopicByRelativePath]
  rw [show resolveTopicPath (rootString [['d', 'a', 't', 'a'],
      ['c', 'o', 'm', 'm', 'u', 'n', 'i', 't', 'y']]) "..topic.json" = none from by decide]
  rfl

/-! ### Lemmas connecting the byte-level and character-level derivations -/

/-- C3: evaluation at the failing input.  Saving a record whose location
is unset writes the file at the derived path, and the callee-local copy
of `topic` (third component, agents.go lines 201-205) has `Filename`
set to that path — but Go passes `topic` by value and `SaveTopic`
returns only `error`, so that assignment is discarded at the call
boundary: the caller-visible record still has `Filename = ""` after a
successful save, contradicting the claim (and spec §4.1). -/
theorem saveTopic_location_lost_to_caller :
    topicM.Filename = ""
  ∧ (SaveTopicFull topicM []).2.1 = "my_topic.json"
  ∧ (SaveTopicFull topicM []).2.2.Filename = "my_topic.json"
  ∧ getFile (SaveTopicFull topicM []).1 "my_topic.json" = some (File.record topicM) := by
  refine ⟨rfl, by decide, by decide, by decide⟩

/-! ### Claim C4 -/

/-- C4: `AddReplyToTopic` fails with the not-found error exactly when no
parseable record of the store has a title equal to the argument; when
the scan's first matching record is `t`, the call succeeds, rewrites
`t`'s existing file (the key set stays the same) with `t`'s replies
extended by the new reply at the end, and every other file of the store
is unchanged. -/
theorem addReply_not_found_iff (title : String) (r : Reply) (st : Store) :
    (AddReplyToTopic title r st = .error ("topic not found: " ++ title)
       ↔ ∀ t ∈ parsedRecords st, t.Title ≠ title)
  ∧ ∀ t, (LoadTopics st).find? (fun u => u.Title == title) = some t →
      AddReplyToTopic title r st
        = .ok (setFile st t.Filename
            (File.record { t with Replies := t.Replies ++ [r], Filename := "" }))
      ∧ t.Filename ∈ st.map Prod.fst
      ∧ (setFile st t.Filename
            (File.record { t with Replies := t.Replies ++ [r], Filename := "" })).map Prod.fst
          = st.map Prod.fst
      ∧ getFile (setFile st t.Filename
            (File.record { t with Replies := t.Replies ++ [r], Filename := "" })) t.Filename
          = some (File.record { t with Replies := t.Replies ++ [r], Filename := "" })
      ∧ ∀ q, q ≠ t.Filename →
          getFile (setFile st t.Filename
            (File.record { t with Replies := t.Replies ++ [r], Filename := "" })) q
            = getFile st q := by
  constructor
  · constructor
    · intro herr t ht hteq
      cases hf : (LoadTopics st).find? (fun u => u.Title == title) with
      | some u => simp [AddReplyToTopic, hf] at herr
      | none =>
        exact List.find?_eq_none.1 hf t ((mem_loadTopics_iff st t).2 ht) (by simp [hteq])
    · intro hall
      have hf : (LoadTopics st).find? (fun u => u.Title == title) = none := by
        rw [List.find?_eq_none]
        intro u hu hbe
        exact hall u ((mem_loadTopics_iff st u).1 hu) (by simpa using hbe)
      simp [AddReplyToTopic, hf]
  · intro t hf
    have hmem : t ∈ LoadTopics st := List.mem_of_find?_eq_some hf
    obtain ⟨f, hfs, hsuf, _⟩ := mem_parsedRecords_elim st t ((mem_loadTopics_iff st t).1 hmem)
    have hfn : t.Filename ≠ "" := hasJsonSuffix_ne_empty _ hsuf
    have hkey : t.Filename ∈ st.map Prod.fst := List.mem_map.2 ⟨(t.Filename, f), hfs, rfl⟩
    have hsave : AddReplyToTopic title r st
        = .ok (setFile st t.Filename
            (File.record { t with Replies := t.Replies ++ [r], Filename := "" })) := by
      simp only [AddReplyToTopic, hf]
      simp [SaveTopicFull, hfn]
    exact ⟨hsave, hkey, setFile_keys_of_mem st _ _ hkey, getFile_setFile_self st _ _,
      fun q hq => getFile_setFile_ne st _ q _ hq⟩

/-- Instantiation of `addReply_not_found_iff` on a concrete three-file
store: appending to an existing title rewrites only that record's file,
and appending to a missing title fails with the not-found error. -/
theorem addReply_not_found_iff_witness :
    AddReplyToTopic "Second Topic" replyR demoStore
      = .ok [("first_topic.json", File.record topicA), ("bad.json", File.junk),
             ("second_topic.json", File.record { topicB with Replies := [replyR] })]
  ∧ AddReplyToTopic "No Such Title" replyR demoStore
      = .error "topic not found: No Such Title" := by
  constructor
  · have h := ((addReply_not_found_iff "Second Topic" replyR demoStore).2
      { topicB with Filename := "second_topic.json" } (by decide)).1
    rw [h]
    exact congrArg Except.ok (by decide)
  · exact (addReply_not_found_iff "No Such Title" replyR demoStore).1.2 (by decide)

/-! ### Claim C5 -/

/-- C6: for a store whose parsed records carry pairwise distinct
timestamps, the scan returns a permutation of those records that is
strictly decreasing — in particular non-increasing — in `Timestamp`
under the lexicographic string order. -/
theorem loadTopics_sorted_desc (st : Store)
    (hdist : (parsedRecords st).Pairwise fun a b => a.Timestamp ≠ b.Timestamp) :
    List.Perm (LoadTopics st) (parsedRecords st)
  ∧ (LoadTopics st).Pairwise fun a b => b.Timestamp < a.Timestamp := by
  refine ⟨loadTopics_perm st, ?_⟩
  have hle : (LoadTopics st).Pairwise fun a b => b.Timestamp ≤ a.Timestamp :=
    sortByTsDesc_sorted (parsedRecords st)
  have hne : (LoadTopics st).Pairwise fun a b => a.Timestamp ≠ b.Timestamp :=
    ((loadTopics_perm st).pairwise_iff fun h => Ne.symm h).2 hdist
  exact (hle.and hne).imp fun h => lt_of_le_of_ne h.1 (Ne.symm h.2)

/-- Instantiation of `loadTopics_sorted_desc` on the concrete store. -/
theorem loadTopics_sorted_desc_witness :
    ((parsedRecords demoStore).Pairwise fun a b => a.Timestamp ≠ b.Timestamp)
  ∧ (LoadTopics demoStore).Pairwise fun a b => b.Timestamp < a.Timestamp :=
  ⟨by decide, (loadTopics_sorted_desc demoStore (by decide)).2⟩

/-! ### Claim C7 -/

/-- C7: the scan silently skips any file that fails to deserialize:
inserting an unparseable file anywhere in the store leaves the scan
result unchanged (and the scan is total — the per-file decode failure
is swallowed inside the walk, never surfaced); concretely, a store with
one well-formed record file and one invalid file yields exactly the one
record. -/
theorem loadTopics_skips_unparseable (st1 st2 : Store) (p : String) (f : File)
    (hf : parseFile f = none) :
    LoadTopics (st1 ++ (p, f) :: st2) = LoadTopics (st1 ++ st2)
  ∧ LoadTopics [("first_topic.json", File.record topicA), ("bad.json", File.junk)]
      = [{ topicA with Filename := "first_topic.json" }] := by
  refine ⟨?_, by decide⟩
  unfold LoadTopics
  congr 1
  unfold parsedRecords
  rw [List.filterMap_append, List.filterMap_append]
  congr 1
  have hnone : (if hasJsonSuffix p then (parseFile f).map
      (fun t => { t with Filename := p }) else none) = none := by
    by_cases h : hasJsonSuffix p
    · rw [if_pos h, hf]; rfl
    · rw [if_neg h]
  simp only [List.filterMap_cons, hnone]

/-- Instantiation of `loadTopics_skips_unparseable`: adding the invalid
file `bad.json` to a one-record store does not change the scan. -/
theorem loadTopics_skips_unparseable_witness :
    parseFile File.junk = none
  ∧ LoadTopics [("first_topic.json", File.record topicA), ("bad.json", File.junk)]
      = LoadTopics [("first_topic.json", File.record topicA)] :=
  ⟨rfl, by
    have h := (loadTopics_skips_unparseable [("first_topic.json", File.record topicA)] []
      "bad.json" File.junk rfl).1
    simpa using h⟩

/-! ### Claim C8 -/

/-- C8: `LoadRecentTopics` returns the whole scan unchanged whenever
`limit ≤ 0`, and the first `limit` entries (newest first) when `limit`
is positive and the store holds more than `limit` records. -/
theorem loadRecentTopics_truncation (st : Store) (limit : Int) :
    (limit ≤ 0 → LoadRecentTopics st limit = LoadTopics st)
  ∧ (0 < limit → limit < ((LoadTopics st).length : Int) →
      LoadRecentTopics st limit = (LoadTopics st).take limit.toNat) := by
  constructor
  · intro h
    simp only [LoadRecentTopics]
    rw [if_neg]
    rintro ⟨h1, _⟩
    exact absurd h (not_le.2 h1)
  · intro h1 h2
    simp only [LoadRecentTopics]
    rw [if_pos ⟨h1, h2⟩]

/-- Instantiation of `loadRecentTopics_truncation` on a store holding
two records: limit `-1` returns both, limit `1` returns the newest. -/
theorem loadRecentTopics_truncation_witness :
    LoadRecentTopics demoStore (-1) = LoadTopics demoStore
  ∧ (1 : Int) < ((LoadTopics demoStore).length : Int)
  ∧ LoadRecentTopics demoStore 1 = (LoadTopics demoStore).take 1 :=
  ⟨(loadRecentTopics_truncation demoStore (-1)).1 (by decide),
   by decide,
   (loadRecentTopics_truncation demoStore 1).2 (by decide) (by decide)⟩

/-! ### Claim C9 -/

end Kommunity
